import Mathlib

/-!
Shallow embedding of `app/lib/.server/llm/enhanced-context-cache-service.ts`:
the bounded, expiring, optionally-compressed in-memory context cache.
Timestamps and durations are modelled as rationals (JS numbers without the
floating-point rounding), sizes as naturals, and the JS `Map` as an
association list in insertion order (which is exactly the iteration order
of a JS `Map`).
-/

set_option maxRecDepth 10000

namespace EnhancedContextCache

/-- Modelled from the spec: `FileMap` (imported from `./constants`, a file not
present in the sources) is a mapping from file path to file content,
`map<string,string>` per the spec's interface section. -/
abbrev FileMap := List (String × String)

/-! ### JS string primitives (trim / toLowerCase), modelled on `List Char` -/

/-- Modelled from the spec: the whitespace test used by JS `String.trim`. -/
def isWS (c : Char) : Bool := c = ' ' || c = '\t' || c = '\n' || c = '\r'

/-- Modelled from the spec: ASCII lowering as performed by JS
`String.toLowerCase` on ASCII path strings. -/
def lowerc (c : Char) : Char :=
  match c with
  | 'A' => 'a' | 'B' => 'b' | 'C' => 'c' | 'D' => 'd' | 'E' => 'e'
  | 'F' => 'f' | 'G' => 'g' | 'H' => 'h' | 'I' => 'i' | 'J' => 'j'
  | 'K' => 'k' | 'L' => 'l' | 'M' => 'm' | 'N' => 'n' | 'O' => 'o'
  | 'P' => 'p' | 'Q' => 'q' | 'R' => 'r' | 'S' => 's' | 'T' => 't'
  | 'U' => 'u' | 'V' => 'v' | 'W' => 'w' | 'X' => 'x' | 'Y' => 'y'
  | 'Z' => 'z'
  | c => c

/-- Both-ends whitespace strip on a character list (JS `trim`). -/
def trimChars (l : List Char) : List Char :=
  ((l.dropWhile isWS).reverse.dropWhile isWS).reverse

/-- JS `s.trim()`. -/
def trimStr (s : String) : String := ⟨trimChars s.data⟩

/-- JS `s.toLowerCase()`. -/
def lowerStr (s : String) : String := ⟨s.data.map lowerc⟩

/-- Modelled from the spec: the default JS `Array.sort` string comparison,
lexicographic by character code. -/
def charLeb : List Char → List Char → Bool
  | [], _ => true
  | _ :: _, [] => false
  | a :: as, b :: bs => if a = b then charLeb as bs else decide (a < b)

/-- The sort order on path strings. -/
def strLe (s t : String) : Prop := charLeb s.data t.data = true

instance : DecidableRel strLe := fun s t =>
  inferInstanceAs (Decidable (charLeb s.data t.data = true))

/-! ### Cache key generation (`generateCacheKey`) -/

/-- Modelled from the spec: JSON string-body escaping done by the external
`JSON.stringify` when rendering the normalized key record. -/
def escChars (l : List Char) : List Char :=
  (l.map (fun c => if c = '"' || c = '\\' then ['\\', c] else [c])).flatten

/-- A JSON string literal. -/
def jstr (s : String) : String := ⟨'"' :: (escChars s.data ++ ['"'])⟩

/-- A JSON array of string literals. -/
def jarr (l : List String) : String :=
  "[" ++ String.intercalate "," (l.map jstr) ++ "]"

/-- Modelled from the spec: `JSON.stringify` of the normalized key record
`\x7bpromptId, messageIds, filePaths\x7d` (field order as in the source). -/
def renderKey (pid : Option String) (ms fs : List String) : String :=
  "\x7b\"promptId\":" ++
    (match pid with
     | none => "null"
     | some s => jstr s) ++
  ",\"messageIds\":" ++ jarr ms ++
  ",\"filePaths\":" ++ jarr fs ++ "\x7d"

/-- JS `slice(-3)`: the trailing (at most) three elements. -/
def lastThree (l : List String) : List String := l.drop (l.length - 3)

/-- `generateCacheKey` (source lines 78-106): filter out blank message ids,
trim them, keep the last three; filter out blank file paths, trim and
lowercase them, sort them; normalize a missing or blank prompt id to `null`;
then JSON-render the record. -/
def generateCacheKey (promptId : Option String) (messageIds : List String)
    (filePaths : List String) : String :=
  let normalizedMessageIds :=
    lastThree ((messageIds.filter (fun s => decide (0 < (trimStr s).length))).map trimStr)
  let normalizedFilePaths :=
    List.insertionSort strLe
      ((filePaths.filter (fun s => decide (0 < (trimStr s).length))).map
        (fun s => lowerStr (trimStr s)))
  let pid : Option String :=
    match promptId with
    | some s => if (trimStr s).length = 0 then none else some (trimStr s)
    | none => none
  renderKey pid normalizedMessageIds normalizedFilePaths

/-! ### Serialization and compression model -/

/-- The data handed to the compressor: `\x7bcontextFiles, summary: entry.summary || ''\x7d`. -/
structure SerData where
  contextFiles : FileMap
  summary : String
deriving DecidableEq

/-- Serialized JSON form of one `path: content` pair list. -/
def serializePairs : List (String × String) → List Char
  | [] => []
  | [(p, c)] => (jstr p).data ++ ':' :: (jstr c).data
  | (p, c) :: rest => (jstr p).data ++ ':' :: (jstr c).data ++ ',' :: serializePairs rest

/-- Modelled from the spec: the canonical byte encoding (`JSON.stringify`)
of the data to compress. -/
def serializeChars (sd : SerData) : List Char :=
  ("\x7b\"contextFiles\":\x7b").data ++ serializePairs sd.contextFiles ++
    ("\x7d,\"summary\":").data ++ (jstr sd.summary).data ++ ['\x7d']

/-- Number of runs of equal adjacent characters. -/
def rleRuns : List Char → Nat
  | [] => 0
  | [_] => 1
  | a :: b :: r => (if a = b then 0 else 1) + rleRuns (b :: r)

/-- Modelled from the spec: the output size of the deflate-style compressor
(`pako.deflate`, an external library): a run-length model costing two bytes
per run, so repetitive payloads shrink and high-entropy ones do not. -/
def deflateLen (sd : SerData) : Nat := 2 * rleRuns (serializeChars sd)

/-- Modelled from the spec: the opaque base64 blob produced by deflating a
serialized payload. `ok` is a well-formed blob; the other constructors stand
for corrupt strings failing at the inflate, JSON-parse, or
structure-validation stage respectively. -/
inductive Blob where
  | ok (data : SerData)
  | badInflate (tag : Nat)
  | badParse (tag : Nat)
  | badStruct (tag : Nat)
deriving DecidableEq

/-- A dynamically-typed JS value sitting in the `_compressed` slot:
a non-empty string carrying a blob, the empty string (falsy), or a
non-string value. -/
inductive DynVal where
  | bstr (b : Blob)
  | estr
  | nonstr (n : Int)
deriving DecidableEq

/-- The dynamically-shaped `contextFiles` field: either a plain file map or
the packed object `\x7b_compressed, _originalSize, _compressionRatio\x7d` built by
`compressEntry` (whose slots may each be missing in a corrupt entry). -/
inductive CtxFiles where
  | files (m : FileMap)
  | packed (blob : Option DynVal) (origSize : Option Nat) (pct : Option Rat)
deriving DecidableEq

/-- `EnhancedContextCacheEntry` (source lines 19-30). -/
structure EnhancedContextCacheEntry where
  timestamp : Rat
  contextFiles : CtxFiles
  summary : Option String
  expiresAt : Rat
  size : Nat
  compressed : Bool
  originalSize : Option Nat
  accessCount : Nat
  lastAccessTime : Rat
  totalAccessTime : Rat
deriving DecidableEq

abbrev Entry := EnhancedContextCacheEntry

/-- The value passed to `set`: `\x7bcontextFiles, summary?\x7d`. -/
structure CacheValue where
  contextFiles : FileMap
  summary : Option String
deriving DecidableEq

/-- The value returned by `get` (its `contextFiles` slot is dynamically
typed in the source, so it may carry a packed object). -/
structure GetResult where
  contextFiles : CtxFiles
  summary : Option String
deriving DecidableEq

/-! ### The cache state -/

def ENHANCED_CACHE_EXPIRY_MS : Rat := 30 * 60 * 1000
def MAX_ENHANCED_CACHE_SIZE : Nat := 200
def DEFAULT_COMPRESSION_THRESHOLD : Nat := 5 * 1024

/-- The private fields of the `EnhancedContextCache` class. The JS `Map` is
an association list in insertion order. -/
structure CacheState where
  cache : List (String × Entry)
  maxSize : Nat
  defaultExpiryMs : Rat
  hits : Nat
  misses : Nat
  compressionEnabled : Bool
  adaptiveExpiryEnabled : Bool
  memoryMonitoringEnabled : Bool
  autoCompressionThreshold : Nat
deriving DecidableEq

/-- The state built by the constructor (source lines 51-66). -/
def initialState : CacheState :=
  { cache := []
    maxSize := MAX_ENHANCED_CACHE_SIZE
    defaultExpiryMs := ENHANCED_CACHE_EXPIRY_MS
    hits := 0
    misses := 0
    compressionEnabled := true
    adaptiveExpiryEnabled := true
    memoryMonitoringEnabled := true
    autoCompressionThreshold := DEFAULT_COMPRESSION_THRESHOLD }

/-! ### JS `Map` operations on the association list -/

/-- `Map.get`. -/
def lookupKey : List (String × Entry) → String → Option Entry
  | [], _ => none
  | (k', e) :: r, k => if k' = k then some e else lookupKey r k

/-- `Map.set`: replace in place if the key is present, else append. -/
def insertKey : List (String × Entry) → String → Entry → List (String × Entry)
  | [], k, e => [(k, e)]
  | (k', e') :: r, k, e => if k' = k then (k, e) :: r else (k', e') :: insertKey r k e

/-- `Map.delete`. -/
def eraseKey : List (String × Entry) → String → List (String × Entry)
  | [], _ => []
  | (k', e') :: r, k => if k' = k then r else (k', e') :: eraseKey r k

/-! ### Cache operations -/

/-- `calculateSize` (source lines 260-275): per file, path length plus UTF-8
byte length of the content, plus the summary length when present. -/
def calculateSize (contextFiles : FileMap) (summary : Option String) : Nat :=
  (contextFiles.foldl (fun acc pc => acc + pc.1.length + pc.2.utf8ByteSize) 0) +
    (match summary with
     | some s => s.length
     | none => 0)

/-- `cleanup` (source lines 220-234): drop every entry whose `expiresAt` has
strictly passed. -/
def cleanupOp (s : CacheState) (now : Rat) : CacheState :=
  { s with cache := s.cache.filter (fun p => decide (now ≤ p.2.expiresAt)) }

/-- The scan inside `getOldestEntry`: the running best (key, timestamp) is
replaced only on a strictly smaller timestamp, so the first minimum wins. -/
def oldestScan : String × Rat → List (String × Entry) → String × Rat
  | b, [] => b
  | b, (k, e) :: r => if e.timestamp < b.2 then oldestScan (k, e.timestamp) r else oldestScan b r

/-- `getOldestEntry` (source lines 239-255). -/
def getOldestEntry : List (String × Entry) → Option String
  | [] => none
  | (k, e) :: r => some (oldestScan (k, e.timestamp) r).1

/-- `compressEntry` (source lines 280-358). Every failure path of the
source's try/catch returns the entry unchanged. -/
def compressEntry (compressionEnabled : Bool) (threshold : Nat) (e : Entry) : Entry :=
  if !compressionEnabled || e.compressed then e
  else
    let originalSize := e.size
    if originalSize ≤ threshold then e
    else
      match e.contextFiles with
      | .packed _ _ _ => e
      | .files m =>
        if m.isEmpty then e
        else
          let sd : SerData := ⟨m, e.summary.getD ""⟩
          let compressedSize := deflateLen sd
          let pct : Rat := (1 - (compressedSize : Rat) / (originalSize : Rat)) * 100
          if pct ≤ 0 then e
          else
            { e with
              contextFiles := .packed (some (.bstr (.ok sd))) (some originalSize) (some pct)
              compressed := true
              originalSize := some originalSize
              size := compressedSize }

/-- `decompressEntry` (source lines 363-424). Every thrown error is caught
and the entry is returned unchanged (still compressed). -/
def decompressEntry (e : Entry) : Entry :=
  if !e.compressed then e
  else
    match e.contextFiles with
    | .files _ => e
    | .packed blob os _pct =>
      match blob with
      | some (.bstr b) =>
        (match os with
         | some n =>
           if n = 0 then e
           else
             match b with
             | .ok sd =>
               { e with
                 contextFiles := .files sd.contextFiles
                 summary := some sd.summary
                 compressed := false
                 size := n }
             | _ => e
         | none => e)
      | _ => e

/-- The effective expiry duration used by `set`: the JS expression
`expiryMs || this.defaultExpiryMs`, whose falsiness test sends a zero
override back to the default. -/
def expiryOf (s : CacheState) (expiryMs : Option Rat) : Rat :=
  match expiryMs with
  | some x => if x = 0 then s.defaultExpiryMs else x
  | none => s.defaultExpiryMs

/-- The entry literal built by `set` before the compression attempt
(source lines 126-135). -/
def plainEntry (s : CacheState) (now : Rat) (v : CacheValue)
    (expiryMs : Option Rat) : Entry :=
  { timestamp := now
    contextFiles := .files v.contextFiles
    summary := v.summary
    expiresAt := now + expiryOf s expiryMs
    size := calculateSize v.contextFiles v.summary
    compressed := false
    originalSize := none
    accessCount := 0
    lastAccessTime := now
    totalAccessTime := 0 }

/-- The entry built by `set` (source lines 123-140): fresh counters,
`expiresAt = now + expiry`, then the guarded compression attempt. -/
def newEntry (s : CacheState) (now : Rat) (v : CacheValue)
    (expiryMs : Option Rat) : Entry :=
  if s.compressionEnabled &&
      decide (s.autoCompressionThreshold < calculateSize v.contextFiles v.summary) then
    compressEntry s.compressionEnabled s.autoCompressionThreshold
      (plainEntry s now v expiryMs)
  else plainEntry s now v expiryMs

/-- `set` (source lines 111-145): cleanup, evict the oldest entry when at or
above capacity, build the fresh entry, insert. -/
def setOp (s : CacheState) (now : Rat) (k : String) (v : CacheValue)
    (expiryMs : Option Rat) : CacheState :=
  let s := cleanupOp s now
  let cacheAfterEvict :=
    if s.maxSize ≤ s.cache.length then
      match getOldestEntry s.cache with
      | some oldestKey => eraseKey s.cache oldestKey
      | none => s.cache
    else s.cache
  { s with cache := insertKey cacheAfterEvict k (newEntry s now v expiryMs) }

/-- `adjustExpiry` (source lines 429-436). -/
def adjustExpiryEntry (defaultExpiryMs : Rat) (now : Rat) (e : Entry) : Entry :=
  let accessFactor : Rat := (min e.accessCount 10 : Nat) / 10
  let additionalTime := defaultExpiryMs * accessFactor
  { e with expiresAt := max e.expiresAt (now + additionalTime) }

/-- `get` (source lines 150-198). `tStart` is the `Date.now()` taken on
entry, `tNow` the one used for the expiry check and the access-statistics
update. Returns the result handed to the caller and the new state. -/
def getOp (s : CacheState) (tStart tNow : Rat) (k : String) :
    Option GetResult × CacheState :=
  match lookupKey s.cache k with
  | none => (none, { s with misses := s.misses + 1 })
  | some entry =>
    if entry.expiresAt < tNow then
      (none, { s with cache := eraseKey s.cache k, misses := s.misses + 1 })
    else
      let d := if entry.compressed then decompressEntry entry else entry
      let accessTime := tNow - tStart
      let d :=
        { d with
          accessCount := d.accessCount + 1
          lastAccessTime := tNow
          totalAccessTime := d.totalAccessTime + accessTime
          timestamp := tNow }
      let s := { s with hits := s.hits + 1, cache := insertKey s.cache k d }
      let (d, s) :=
        if s.adaptiveExpiryEnabled then
          let d' := adjustExpiryEntry s.defaultExpiryMs tNow d
          (d', { s with cache := insertKey s.cache k d' })
        else (d, s)
      (some ⟨d.contextFiles, d.summary⟩, s)

/-- `delete` (source lines 203-205). -/
def deleteOp (s : CacheState) (k : String) : CacheState :=
  { s with cache := eraseKey s.cache k }

/-- `clear` (source lines 210-215). -/
def clearOp (s : CacheState) : CacheState :=
  { s with cache := [], hits := 0, misses := 0 }

/-! ### Operation sequences -/

/-- The operations a client can issue against a cache with a fixed capacity
bound (`setMaxSize` is a separate reconfiguration entry point, treated by
the spec's configuration table as changing the bound itself). -/
inductive Op where
  | opSet (now : Rat) (k : String) (v : CacheValue) (expiryMs : Option Rat)
  | opGet (tStart tNow : Rat) (k : String)
  | opDelete (k : String)
  | opClear
  | opCleanup (now : Rat)
  | opSetDefaultExpiry (x : Rat)
  | opSetCompressionEnabled (b : Bool)
  | opSetAdaptiveExpiryEnabled (b : Bool)
  | opSetMemoryMonitoringEnabled (b : Bool)
  | opSetAutoCompressionThreshold (t : Nat)

def applyOp (s : CacheState) : Op → CacheState
  | .opSet now k v x => setOp s now k v x
  | .opGet t0 t1 k => (getOp s t0 t1 k).2
  | .opDelete k => deleteOp s k
  | .opClear => clearOp s
  | .opCleanup now => cleanupOp s now
  | .opSetDefaultExpiry x => { s with defaultExpiryMs := x }
  | .opSetCompressionEnabled b => { s with compressionEnabled := b }
  | .opSetAdaptiveExpiryEnabled b => { s with adaptiveExpiryEnabled := b }
  | .opSetMemoryMonitoringEnabled b => { s with memoryMonitoringEnabled := b }
  | .opSetAutoCompressionThreshold t => { s with autoCompressionThreshold := t }

def runOps (s : CacheState) (ops : List Op) : CacheState :=
  ops.foldl applyOp s

/-! ### Association-list lemmas -/

theorem lookupKey_insertKey_self (l : List (String × Entry)) (k : String) (e : Entry) :
    lookupKey (insertKey l k e) k = some e := by
  induction l with
  | nil => simp [insertKey, lookupKey]
  | cons p r ih =>
    by_cases h : p.1 = k
    · simp [insertKey, lookupKey, h]
    · simp [insertKey, lookupKey, h, ih]

theorem lookupKey_insertKey_ne (l : List (String × Entry)) (k k' : String) (e : Entry)
    (h : k' ≠ k) : lookupKey (insertKey l k e) k' = lookupKey l k' := by
  induction l with
  | nil => simp [insertKey, lookupKey, Ne.symm h]
  | cons p r ih =>
    obtain ⟨pk, pe⟩ := p
    by_cases hp : pk = k
    · subst hp
      simp [insertKey, lookupKey, Ne.symm h]
    · simp [insertKey, lookupKey, hp, ih]

theorem length_insertKey_of_lookup (l : List (String × Entry)) (k : String) (e' : Entry)
    (h : (lookupKey l k).isSome) : (insertKey l k e').length = l.length := by
  induction l with
  | nil => simp [lookupKey] at h
  | cons p r ih =>
    by_cases hp : p.1 = k
    · simp [insertKey, hp]
    · simp only [lookupKey, hp, if_false] at h
      simp [insertKey, hp, ih h]

theorem length_insertKey_le (l : List (String × Entry)) (k : String) (e : Entry) :
    (insertKey l k e).length ≤ l.length + 1 := by
  induction l with
  | nil => simp [insertKey]
  | cons p r ih =>
    by_cases hp : p.1 = k
    · simp [insertKey, hp]
    · simpa [insertKey, hp] using Nat.succ_le_succ ih

theorem length_eraseKey_le (l : List (String × Entry)) (k : String) :
    (eraseKey l k).length ≤ l.length := by
  induction l with
  | nil => simp [eraseKey]
  | cons p r ih =>
    by_cases hp : p.1 = k
    · simp only [eraseKey, hp, if_true, List.length_cons]
      exact Nat.le_succ _
    · simpa [eraseKey, hp] using Nat.succ_le_succ ih

theorem length_eraseKey_of_lookup (l : List (String × Entry)) (k : String)
    (h : (lookupKey l k).isSome) : (eraseKey l k).length + 1 = l.length := by
  induction l with
  | nil => simp [lookupKey] at h
  | cons p r ih =>
    by_cases hp : p.1 = k
    · simp [eraseKey, hp]
    · simp only [lookupKey, hp, if_false] at h
      simp [eraseKey, hp, ih h]

theorem lookupKey_isSome_of_memKey (l : List (String × Entry)) (p : String × Entry)
    (hmem : p ∈ l) (k : String) (hk : p.1 = k) : (lookupKey l k).isSome := by
  induction l with
  | nil => simp at hmem
  | cons q r ih =>
    rcases List.mem_cons.mp hmem with h | h
    · subst h; simp [lookupKey, hk]
    · by_cases hq : q.1 = k
      · simp [lookupKey, hq]
      · simpa [lookupKey, hq] using ih h

theorem mem_insertKey (l : List (String × Entry)) (k : String) (e : Entry)
    (p : String × Entry) (h : p ∈ insertKey l k e) : p = (k, e) ∨ p ∈ l := by
  induction l with
  | nil => simpa [insertKey] using h
  | cons q r ih =>
    by_cases hq : q.1 = k
    · simp only [insertKey, hq, if_true] at h
      rcases List.mem_cons.mp h with h | h
      · exact Or.inl h
      · exact Or.inr (List.mem_cons.mpr (Or.inr h))
    · simp only [insertKey, hq, if_false] at h
      rcases List.mem_cons.mp h with h | h
      · exact Or.inr (List.mem_cons.mpr (Or.inl h))
      · rcases ih h with h | h
        · exact Or.inl h
        · exact Or.inr (List.mem_cons.mpr (Or.inr h))

theorem mem_eraseKey (l : List (String × Entry)) (k : String)
    (p : String × Entry) (h : p ∈ eraseKey l k) : p ∈ l := by
  induction l with
  | nil => simp [eraseKey] at h
  | cons q r ih =>
    by_cases hq : q.1 = k
    · simp only [eraseKey, hq, if_true] at h
      exact List.mem_cons.mpr (Or.inr h)
    · simp only [eraseKey, hq, if_false] at h
      rcases List.mem_cons.mp h with h | h
      · exact List.mem_cons.mpr (Or.inl h)
      · exact List.mem_cons.mpr (Or.inr (ih h))

/-! ### Oldest-entry lemmas -/

theorem oldestScan_min (l : List (String × Entry)) : ∀ b : String × Rat,
    (oldestScan b l).2 ≤ b.2 ∧ ∀ p ∈ l, (oldestScan b l).2 ≤ p.2.timestamp := by
  induction l with
  | nil => intro b; simp [oldestScan]
  | cons q r ih =>
    obtain ⟨qk, qe⟩ := q
    intro b
    by_cases h : qe.timestamp < b.2
    · have hq := ih (qk, qe.timestamp)
      have hred : oldestScan b ((qk, qe) :: r) = oldestScan (qk, qe.timestamp) r := by
        simp [oldestScan, h]
      constructor
      · rw [hred]; exact le_trans hq.1 (le_of_lt h)
      · intro p hp
        rw [hred]
        rcases List.mem_cons.mp hp with rfl | hp
        · exact hq.1
        · exact hq.2 p hp
    · have hq := ih b
      have hred : oldestScan b ((qk, qe) :: r) = oldestScan b r := by
        simp [oldestScan, h]
      constructor
      · rw [hred]; exact hq.1
      · intro p hp
        rw [hred]
        rcases List.mem_cons.mp hp with rfl | hp
        · exact le_trans hq.1 (le_of_not_lt h)
        · exact hq.2 p hp

theorem oldestScan_mem (l : List (String × Entry)) : ∀ b : String × Rat,
    oldestScan b l = b ∨ ∃ p ∈ l, oldestScan b l = (p.1, p.2.timestamp) := by
  induction l with
  | nil => intro b; simp [oldestScan]
  | cons q r ih =>
    intro b
    by_cases h : q.2.timestamp < b.2
    · rcases ih (q.1, q.2.timestamp) with h' | ⟨p, hp, h'⟩
      · exact Or.inr ⟨q, List.mem_cons_self _ _, by simpa [oldestScan, h] using h'⟩
      · exact Or.inr ⟨p, List.mem_cons.mpr (Or.inr hp), by simpa [oldestScan, h] using h'⟩
    · rcases ih b with h' | ⟨p, hp, h'⟩
      · exact Or.inl (by simpa [oldestScan, h] using h')
      · exact Or.inr ⟨p, List.mem_cons.mpr (Or.inr hp), by simpa [oldestScan, h] using h'⟩

theorem getOldestEntry_spec (l : List (String × Entry)) (hne : l ≠ []) :
    ∃ kold p, getOldestEntry l = some kold ∧ p ∈ l ∧ p.1 = kold ∧
      ∀ q ∈ l, p.2.timestamp ≤ q.2.timestamp := by
  match l with
  | [] => exact absurd rfl hne
  | (k, e) :: r =>
    have hmin := oldestScan_min r (k, e.timestamp)
    rcases oldestScan_mem r (k, e.timestamp) with h | ⟨p, hp, h⟩
    · refine ⟨k, (k, e), ?_, List.mem_cons_self _ _, rfl, ?_⟩
      · simp [getOldestEntry, h]
      · intro q hq
        rcases List.mem_cons.mp hq with rfl | hq
        · exact le_refl _
        · have := hmin.2 q hq
          rw [h] at this
          exact this
    · refine ⟨p.1, p, ?_, List.mem_cons.mpr (Or.inr hp), rfl, ?_⟩
      · simp [getOldestEntry, h]
      · intro q hq
        have h2 : (oldestScan (k, e.timestamp) r).2 = p.2.timestamp := by rw [h]
        rcases List.mem_cons.mp hq with rfl | hq
        · have := hmin.1
          rw [h2] at this
          exact this
        · have := hmin.2 q hq
          rw [h2] at this
          exact this

/-! ### Field-preservation lemmas for compression and decompression -/

theorem compressEntry_eq_or (b : Bool) (t : Nat) (e : Entry) :
    compressEntry b t e = e ∨
      (¬ e.compressed ∧ t < e.size ∧
        ∃ m, e.contextFiles = .files m ∧ m ≠ [] ∧
          deflateLen ⟨m, e.summary.getD ""⟩ < e.size ∧
          compressEntry b t e =
            { e with
              contextFiles := .packed (some (.bstr (.ok ⟨m, e.summary.getD ""⟩)))
                (some e.size) (some ((1 - (deflateLen ⟨m, e.summary.getD ""⟩ : Rat) / (e.size : Rat)) * 100))
              compressed := true
              originalSize := some e.size
              size := deflateLen ⟨m, e.summary.getD ""⟩ }) := by
  unfold compressEntry
  by_cases hb : (!b || e.compressed) = true
  · simp [hb]
  · simp only [hb, Bool.false_eq_true, if_false]
    by_cases hthr : e.size ≤ t
    · simp [hthr]
    · simp only [hthr, if_false]
      match hcf : e.contextFiles with
      | .packed blob os pct => simp
      | .files m =>
        by_cases hm : m.isEmpty
        · simp [hm]
        · simp only [hm, Bool.false_eq_true, if_false]
          by_cases hpct : (1 - (deflateLen ⟨m, e.summary.getD ""⟩ : Rat) / (e.size : Rat)) * 100 ≤ 0
          · simp [hpct]
          · right
            have hb' : b = true ∧ e.compressed = false := by simpa using hb
            have hnc : ¬ e.compressed := by simp [hb'.2]
            have hos : (0 : Rat) < (e.size : Rat) := by
              have : 0 < e.size := Nat.lt_of_le_of_lt (Nat.zero_le t) (Nat.lt_of_not_le hthr)
              exact_mod_cast this
            have hshrink : deflateLen ⟨m, e.summary.getD ""⟩ < e.size := by
              have h1 : (0 : Rat) < (1 - (deflateLen ⟨m, e.summary.getD ""⟩ : Rat) / (e.size : Rat)) * 100 :=
                lt_of_not_le hpct
              have h2 : (deflateLen ⟨m, e.summary.getD ""⟩ : Rat) / (e.size : Rat) < 1 := by nlinarith
              have h3 : (deflateLen ⟨m, e.summary.getD ""⟩ : Rat) < (e.size : Rat) :=
                (div_lt_one hos).mp h2
              exact_mod_cast h3
            exact ⟨hnc, Nat.lt_of_not_le hthr, m, rfl, fun hnil => by simp [hnil] at hm,
              hshrink, by simp [hpct]⟩

theorem compressEntry_expiresAt (b : Bool) (t : Nat) (e : Entry) :
    (compressEntry b t e).expiresAt = e.expiresAt := by
  rcases compressEntry_eq_or b t e with h | ⟨_, _, m, _, _, _, h⟩ <;> rw [h]

theorem compressEntry_timestamp (b : Bool) (t : Nat) (e : Entry) :
    (compressEntry b t e).timestamp = e.timestamp := by
  rcases compressEntry_eq_or b t e with h | ⟨_, _, m, _, _, _, h⟩ <;> rw [h]

theorem compressEntry_accessCount (b : Bool) (t : Nat) (e : Entry) :
    (compressEntry b t e).accessCount = e.accessCount := by
  rcases compressEntry_eq_or b t e with h | ⟨_, _, m, _, _, _, h⟩ <;> rw [h]

theorem decompressEntry_eq_or (e : Entry) :
    decompressEntry e = e ∨
      (∃ sd os pct, e.contextFiles = .packed (some (.bstr (.ok sd))) (some os) pct ∧ os ≠ 0 ∧
        decompressEntry e =
          { e with
            contextFiles := .files sd.contextFiles
            summary := some sd.summary
            compressed := false
            size := os }) := by
  unfold decompressEntry
  by_cases hc : e.compressed
  · simp only [hc, Bool.not_true, Bool.false_eq_true, if_false]
    match hcf : e.contextFiles with
    | .files m => simp
    | .packed blob os pct =>
      match blob with
      | none => simp
      | some .estr => simp
      | some (.nonstr n) => simp
      | some (.bstr b) =>
        match os with
        | none => simp
        | some n =>
          by_cases hn : n = 0
          · simp [hn]
          · match b with
            | .badInflate tag => simp [hn]
            | .badParse tag => simp [hn]
            | .badStruct tag => simp [hn]
            | .ok sd =>
              right
              exact ⟨sd, n, pct, rfl, hn, by simp [hn]⟩
  · simp [hc]

theorem decompressEntry_expiresAt (e : Entry) :
    (decompressEntry e).expiresAt = e.expiresAt := by
  rcases decompressEntry_eq_or e with h | ⟨sd, os, pct, _, _, h⟩ <;> rw [h]

theorem decompressEntry_accessCount (e : Entry) :
    (decompressEntry e).accessCount = e.accessCount := by
  rcases decompressEntry_eq_or e with h | ⟨sd, os, pct, _, _, h⟩ <;> rw [h]

/-! ### Capacity lemmas -/

theorem setOp_cache (s : CacheState) (now : Rat) (k : String) (v : CacheValue)
    (x : Option Rat) :
    (setOp s now k v x).cache =
      insertKey
        (if s.maxSize ≤ (cleanupOp s now).cache.length then
          match getOldestEntry (cleanupOp s now).cache with
          | some oldestKey => eraseKey (cleanupOp s now).cache oldestKey
          | none => (cleanupOp s now).cache
         else (cleanupOp s now).cache)
        k (newEntry s now v x) := rfl

theorem setOp_cache_length (s : CacheState) (now : Rat) (k : String) (v : CacheValue)
    (x : Option Rat) (hmax : 1 ≤ s.maxSize) (hinv : s.cache.length ≤ s.maxSize) :
    (setOp s now k v x).cache.length ≤ s.maxSize := by
  rw [setOp_cache]
  have hc0 : (cleanupOp s now).cache.length ≤ s.cache.length := by
    simpa [cleanupOp] using List.length_filter_le _ s.cache
  by_cases hcap : s.maxSize ≤ (cleanupOp s now).cache.length
  · have hne : (cleanupOp s now).cache ≠ [] := by
      intro h
      rw [h] at hcap
      simp at hcap
      omega
    obtain ⟨kold, p, hold, hmem, hk, _⟩ := getOldestEntry_spec _ hne
    have hsk : (lookupKey (cleanupOp s now).cache kold).isSome :=
      lookupKey_isSome_of_memKey _ p hmem kold hk
    have herase := length_eraseKey_of_lookup (cleanupOp s now).cache kold hsk
    calc (insertKey (if s.maxSize ≤ (cleanupOp s now).cache.length then
            match getOldestEntry (cleanupOp s now).cache with
            | some oldestKey => eraseKey (cleanupOp s now).cache oldestKey
            | none => (cleanupOp s now).cache
           else (cleanupOp s now).cache) k (newEntry s now v x)).length
        = (insertKey (eraseKey (cleanupOp s now).cache kold) k (newEntry s now v x)).length := by
          rw [if_pos hcap, hold]
      _ ≤ (eraseKey (cleanupOp s now).cache kold).length + 1 := length_insertKey_le _ _ _
      _ = (cleanupOp s now).cache.length := herase
      _ ≤ s.maxSize := le_trans hc0 hinv
  · calc (insertKey (if s.maxSize ≤ (cleanupOp s now).cache.length then
            match getOldestEntry (cleanupOp s now).cache with
            | some oldestKey => eraseKey (cleanupOp s now).cache oldestKey
            | none => (cleanupOp s now).cache
           else (cleanupOp s now).cache) k (newEntry s now v x)).length
        = (insertKey (cleanupOp s now).cache k (newEntry s now v x)).length := by
          rw [if_neg hcap]
      _ ≤ (cleanupOp s now).cache.length + 1 := length_insertKey_le _ _ _
      _ ≤ s.maxSize := by omega

theorem getOp_state (s : CacheState) (t0 t1 : Rat) (k : String) (e : Entry)
    (hL : lookupKey s.cache k = some e) (hLive : ¬ e.expiresAt < t1) :
    (getOp s t0 t1 k).2 =
      (let d0 := if e.compressed then decompressEntry e else e
       let d1 : Entry :=
         { d0 with
           accessCount := d0.accessCount + 1
           lastAccessTime := t1
           totalAccessTime := d0.totalAccessTime + (t1 - t0)
           timestamp := t1 }
       if s.adaptiveExpiryEnabled then
         { s with hits := s.hits + 1,
                  cache := insertKey (insertKey s.cache k d1) k
                    (adjustExpiryEntry s.defaultExpiryMs t1 d1) }
       else { s with hits := s.hits + 1, cache := insertKey s.cache k d1 }) := by
  unfold getOp
  rw [hL]
  simp only [if_neg hLive]
  by_cases hAd : s.adaptiveExpiryEnabled <;> simp [hAd]

theorem getOp_result (s : CacheState) (t0 t1 : Rat) (k : String) (e : Entry)
    (hL : lookupKey s.cache k = some e) (hLive : ¬ e.expiresAt < t1) :
    (getOp s t0 t1 k).1 =
      (let d0 := if e.compressed then decompressEntry e else e
       some ⟨d0.contextFiles, d0.summary⟩) := by
  unfold getOp
  rw [hL]
  simp only [if_neg hLive]
  by_cases hAd : s.adaptiveExpiryEnabled <;> simp [hAd, adjustExpiryEntry]

theorem length_insertKey_insertKey (l : List (String × Entry)) (k : String)
    (e1 e2 : Entry) (h : (lookupKey l k).isSome) :
    (insertKey (insertKey l k e1) k e2).length = l.length := by
  have h2 : (lookupKey (insertKey l k e1) k).isSome := by
    rw [lookupKey_insertKey_self]; rfl
  rw [length_insertKey_of_lookup _ _ _ h2, length_insertKey_of_lookup _ _ _ h]

theorem getOp_cache_length (s : CacheState) (t0 t1 : Rat) (k : String) :
    ((getOp s t0 t1 k).2).cache.length ≤ s.cache.length := by
  match hL : lookupKey s.cache k with
  | none => simp [getOp, hL]
  | some e =>
    by_cases hLive : e.expiresAt < t1
    · have : (getOp s t0 t1 k).2.cache = eraseKey s.cache k := by
        simp [getOp, hL, if_pos hLive]
      rw [this]
      exact length_eraseKey_le _ _
    · rw [getOp_state s t0 t1 k e hL hLive]
      have h1 : (lookupKey s.cache k).isSome := by rw [hL]; rfl
      by_cases hAd : s.adaptiveExpiryEnabled
      · simp only [hAd, if_true]
        exact le_of_eq (length_insertKey_insertKey _ _ _ _ h1)
      · simp only [hAd, Bool.false_eq_true, if_false]
        exact le_of_eq (length_insertKey_of_lookup s.cache k _ h1)

theorem getOp_config (s : CacheState) (t0 t1 : Rat) (k : String) :
    (getOp s t0 t1 k).2.maxSize = s.maxSize ∧
    (getOp s t0 t1 k).2.defaultExpiryMs = s.defaultExpiryMs ∧
    (getOp s t0 t1 k).2.compressionEnabled = s.compressionEnabled ∧
    (getOp s t0 t1 k).2.adaptiveExpiryEnabled = s.adaptiveExpiryEnabled ∧
    (getOp s t0 t1 k).2.autoCompressionThreshold = s.autoCompressionThreshold := by
  match hL : lookupKey s.cache k with
  | none => simp [getOp, hL]
  | some e =>
    by_cases hLive : e.expiresAt < t1
    · simp [getOp, hL, if_pos hLive]
    · rw [getOp_state s t0 t1 k e hL hLive]
      by_cases hAd : s.adaptiveExpiryEnabled <;> simp [hAd]

theorem applyOp_maxSize (s : CacheState) (op : Op) :
    (applyOp s op).maxSize = s.maxSize := by
  cases op with
  | opGet t0 t1 k => exact (getOp_config s t0 t1 k).1
  | _ => rfl

theorem applyOp_size_inv (s : CacheState) (op : Op) (hmax : 1 ≤ s.maxSize)
    (hinv : s.cache.length ≤ s.maxSize) :
    (applyOp s op).cache.length ≤ s.maxSize := by
  cases op with
  | opSet now k v x => exact setOp_cache_length s now k v x hmax hinv
  | opGet t0 t1 k => exact le_trans (getOp_cache_length s t0 t1 k) hinv
  | opDelete k => exact le_trans (length_eraseKey_le _ _) hinv
  | opClear => exact Nat.zero_le _
  | opCleanup now =>
    exact le_trans (by simpa [cleanupOp] using List.length_filter_le _ s.cache) hinv
  | opSetDefaultExpiry x => exact hinv
  | opSetCompressionEnabled b => exact hinv
  | opSetAdaptiveExpiryEnabled b => exact hinv
  | opSetMemoryMonitoringEnabled b => exact hinv
  | opSetAutoCompressionThreshold t => exact hinv

theorem runOps_size_inv (s : CacheState) (ops : List Op) (hmax : 1 ≤ s.maxSize)
    (hinv : s.cache.length ≤ s.maxSize) :
    (runOps s ops).cache.length ≤ (runOps s ops).maxSize := by
  induction ops generalizing s with
  | nil => simpa [runOps] using hinv
  | cons op rest ih =>
    have hmax' : 1 ≤ (applyOp s op).maxSize := by
      rw [applyOp_maxSize]; exact hmax
    have hinv' : (applyOp s op).cache.length ≤ (applyOp s op).maxSize := by
      rw [applyOp_maxSize]; exact applyOp_size_inv s op hmax hinv
    simpa [runOps] using ih (applyOp s op) hmax' hinv'

/-! ### The compressed-entry invariant -/

/-- Every compressed entry records its pre-compression size and is no larger
than it. -/
def entryInv (e : Entry) : Prop :=
  e.compressed = true → ∃ os, e.originalSize = some os ∧ e.size ≤ os

def cacheInv (s : CacheState) : Prop := ∀ p ∈ s.cache, entryInv p.2

theorem compressEntry_entryInv (b : Bool) (t : Nat) (e : Entry) (h : entryInv e) :
    entryInv (compressEntry b t e) := by
  rcases compressEntry_eq_or b t e with heq | ⟨hnc, _, m, _, _, hshrink, heq⟩
  · rwa [heq]
  · rw [heq]
    intro _
    exact ⟨e.size, rfl, le_of_lt hshrink⟩

theorem decompressEntry_entryInv (e : Entry) (h : entryInv e) :
    entryInv (decompressEntry e) := by
  rcases decompressEntry_eq_or e with heq | ⟨sd, os, pct, _, _, heq⟩
  · rwa [heq]
  · rw [heq]
    intro hc
    simp at hc

theorem newEntry_entryInv (s : CacheState) (now : Rat) (v : CacheValue)
    (x : Option Rat) : entryInv (newEntry s now v x) := by
  unfold newEntry
  by_cases h : (s.compressionEnabled &&
      decide (s.autoCompressionThreshold < calculateSize v.contextFiles v.summary)) = true
  · simp only [h, if_true]
    apply compressEntry_entryInv
    intro hc
    simp [plainEntry] at hc
  · simp only [h, Bool.false_eq_true, if_false]
    intro hc
    simp [plainEntry] at hc

theorem lookupKey_mem (l : List (String × Entry)) (k : String) (e : Entry)
    (h : lookupKey l k = some e) : (k, e) ∈ l := by
  induction l with
  | nil => simp [lookupKey] at h
  | cons q r ih =>
    obtain ⟨qk, qe⟩ := q
    by_cases hq : qk = k
    · subst hq
      simp only [lookupKey, if_true] at h
      simp at h
      rw [← h]
      exact List.mem_cons_self _ _
    · simp only [lookupKey, hq, if_false] at h
      exact List.mem_cons.mpr (Or.inr (ih h))

theorem applyOp_cacheInv (s : CacheState) (op : Op) (h : cacheInv s) :
    cacheInv (applyOp s op) := by
  cases op with
  | opSet now k v x =>
    intro p hp
    rw [applyOp, setOp_cache] at hp
    rcases mem_insertKey _ _ _ _ hp with rfl | hp
    · exact newEntry_entryInv s now v x
    · have hp' : p ∈ (cleanupOp s now).cache := by
        by_cases hcap : s.maxSize ≤ (cleanupOp s now).cache.length
        · rw [if_pos hcap] at hp
          match hold : getOldestEntry (cleanupOp s now).cache with
          | some oldestKey =>
            rw [hold] at hp
            exact mem_eraseKey _ _ _ hp
          | none =>
            rw [hold] at hp
            exact hp
        · rw [if_neg hcap] at hp
          exact hp
      exact h p (List.mem_filter.mp hp').1
  | opGet t0 t1 k =>
    intro p hp
    match hL : lookupKey s.cache k with
    | none =>
      simp only [applyOp, getOp, hL] at hp
      exact h p hp
    | some e =>
      by_cases hLive : e.expiresAt < t1
      · simp only [applyOp, getOp, hL, if_pos hLive] at hp
        exact h p (mem_eraseKey _ _ _ hp)
      · have he : entryInv e := h (k, e) (lookupKey_mem _ _ _ hL)
        have hd0 : entryInv (if e.compressed then decompressEntry e else e) := by
          by_cases hc : e.compressed
          · simpa [hc] using decompressEntry_entryInv e he
          · simpa [hc] using he
        rw [applyOp, getOp_state s t0 t1 k e hL hLive] at hp
        by_cases hAd : s.adaptiveExpiryEnabled
        · simp only [hAd, if_true] at hp
          rcases mem_insertKey _ _ _ _ hp with rfl | hp
          · exact hd0
          · rcases mem_insertKey _ _ _ _ hp with rfl | hp
            · exact hd0
            · exact h p hp
        · simp only [hAd, Bool.false_eq_true, if_false] at hp
          rcases mem_insertKey _ _ _ _ hp with rfl | hp
          · exact hd0
          · exact h p hp
  | opDelete k =>
    intro p hp
    exact h p (mem_eraseKey _ _ _ hp)
  | opClear =>
    intro p hp
    simp [applyOp, clearOp] at hp
  | opCleanup now =>
    intro p hp
    exact h p (List.mem_filter.mp hp).1
  | opSetDefaultExpiry x => exact h
  | opSetCompressionEnabled b => exact h
  | opSetAdaptiveExpiryEnabled b => exact h
  | opSetMemoryMonitoringEnabled b => exact h
  | opSetAutoCompressionThreshold t => exact h

theorem runOps_cacheInv (s : CacheState) (ops : List Op) (h : cacheInv s) :
    cacheInv (runOps s ops) := by
  induction ops generalizing s with
  | nil => simpa [runOps] using h
  | cons op rest ih =>
    simpa [runOps] using ih (applyOp s op) (applyOp_cacheInv s op h)

/-! ### Key-normalization lemmas -/

theorem isWS_lowerc (c : Char) : isWS (lowerc c) = isWS c := by
  unfold lowerc
  split <;> rfl

theorem dropWhile_isWS_map_lowerc (l : List Char) :
    (l.map lowerc).dropWhile isWS = (l.dropWhile isWS).map lowerc := by
  induction l with
  | nil => rfl
  | cons c r ih =>
    by_cases h : isWS c = true
    · have h' : isWS (lowerc c) = true := by rw [isWS_lowerc]; exact h
      simp [List.dropWhile, h, h', ih]
    · have h' : isWS (lowerc c) = false := by rw [isWS_lowerc]; simpa using h
      simp [List.dropWhile, h, h']

theorem trimChars_map_lowerc (l : List Char) :
    trimChars (l.map lowerc) = (trimChars l).map lowerc := by
  unfold trimChars
  rw [dropWhile_isWS_map_lowerc, ← List.map_reverse, dropWhile_isWS_map_lowerc,
    ← List.map_reverse]

theorem charLeb_total (x y : List Char) : charLeb x y = true ∨ charLeb y x = true := by
  induction x generalizing y with
  | nil => left; rfl
  | cons a as ih =>
    cases y with
    | nil => right; rfl
    | cons b bs =>
      by_cases hab : a = b
      · subst hab
        rcases ih bs with h | h
        · left; simpa [charLeb] using h
        · right; simpa [charLeb] using h
      · rcases lt_or_gt_of_ne hab with h | h
        · left; simp [charLeb, hab, h]
        · right; simp [charLeb, Ne.symm hab, h]

theorem charLeb_trans (x y z : List Char) (h1 : charLeb x y = true)
    (h2 : charLeb y z = true) : charLeb x z = true := by
  induction x generalizing y z with
  | nil => rfl
  | cons a as ih =>
    cases y with
    | nil => simp [charLeb] at h1
    | cons b bs =>
      cases z with
      | nil => simp [charLeb] at h2
      | cons c cs =>
        by_cases hab : a = b <;> by_cases hbc : b = c
        · subst hab; subst hbc
          simp only [charLeb, if_pos rfl] at h1 h2 ⊢
          exact ih bs cs h1 h2
        · subst hab
          simp only [charLeb, if_pos rfl, if_neg hbc, decide_eq_true_eq] at h1 h2 ⊢
          simp [hbc, h2]
        · subst hbc
          simp only [charLeb, if_pos rfl, if_neg hab, decide_eq_true_eq] at h1 ⊢
          simp [hab, h1]
        · simp only [charLeb, if_neg hab, if_neg hbc, decide_eq_true_eq] at h1 h2
          have hac : a < c := lt_trans h1 h2
          simp [charLeb, ne_of_lt hac, hac]

theorem charLeb_antisymm (x y : List Char) (h1 : charLeb x y = true)
    (h2 : charLeb y x = true) : x = y := by
  induction x generalizing y with
  | nil =>
    cases y with
    | nil => rfl
    | cons b bs => simp [charLeb] at h2
  | cons a as ih =>
    cases y with
    | nil => simp [charLeb] at h1
    | cons b bs =>
      by_cases hab : a = b
      · subst hab
        simp only [charLeb, if_pos rfl] at h1 h2
        rw [ih bs h1 h2]
      · simp only [charLeb, if_neg hab, if_neg (Ne.symm hab), decide_eq_true_eq] at h1 h2
        exact absurd h2 (not_lt_of_gt h1)

instance strLeIsTotal : IsTotal String strLe :=
  ⟨fun s t => charLeb_total s.data t.data⟩

instance strLeIsTrans : IsTrans String strLe :=
  ⟨fun s t u h1 h2 => charLeb_trans s.data t.data u.data h1 h2⟩

instance strLeIsAntisymm : IsAntisymm String strLe :=
  ⟨fun s t h1 h2 => by
    have h := charLeb_antisymm s.data t.data h1 h2
    cases s; cases t
    exact congrArg String.mk h⟩

/-- Two strings differing only in letter casing: identical after
lowercasing. -/
def caseEquiv (s t : String) : Prop := lowerStr s = lowerStr t

instance : DecidableRel caseEquiv := fun s t =>
  inferInstanceAs (Decidable (lowerStr s = lowerStr t))

theorem caseEquiv_normalize (s t : String) (h : caseEquiv s t) :
    (trimStr s).length = (trimStr t).length ∧
      lowerStr (trimStr s) = lowerStr (trimStr t) := by
  have hd : s.data.map lowerc = t.data.map lowerc := congrArg String.data h
  have h1 : (trimChars s.data).map lowerc = (trimChars t.data).map lowerc := by
    rw [← trimChars_map_lowerc, ← trimChars_map_lowerc, hd]
  constructor
  · have h2 := congrArg List.length h1
    simpa [trimStr, String.length] using h2
  · show (⟨(trimChars s.data).map lowerc⟩ : String) = ⟨(trimChars t.data).map lowerc⟩
    rw [h1]

theorem normalizedFilePaths_perm (fs1 fs2 : List String) (h : fs1.Perm fs2) :
    List.insertionSort strLe
        ((fs1.filter (fun s => decide (0 < (trimStr s).length))).map
          (fun s => lowerStr (trimStr s))) =
      List.insertionSort strLe
        ((fs2.filter (fun s => decide (0 < (trimStr s).length))).map
          (fun s => lowerStr (trimStr s))) := by
  exact List.eq_of_perm_of_sorted
    (((List.perm_insertionSort _ _).trans (((h.filter _).map _))).trans
      (List.perm_insertionSort _ _).symm)
    (List.sorted_insertionSort _ _) (List.sorted_insertionSort _ _)

theorem normalizedFilePaths_caseEquiv (fs1 fs2 : List String)
    (h : List.Forall₂ caseEquiv fs1 fs2) :
    (fs1.filter (fun s => decide (0 < (trimStr s).length))).map
        (fun s => lowerStr (trimStr s)) =
      (fs2.filter (fun s => decide (0 < (trimStr s).length))).map
        (fun s => lowerStr (trimStr s)) := by
  induction h with
  | nil => rfl
  | @cons a b l1 l2 hab hrest ih =>
    obtain ⟨hlen, hlow⟩ := caseEquiv_normalize a b hab
    by_cases hp : 0 < (trimStr a).length
    · have hp' : 0 < (trimStr b).length := by omega
      have e1 : decide (0 < (trimStr a).length) = true := decide_eq_true hp
      have e2 : decide (0 < (trimStr b).length) = true := decide_eq_true hp'
      rw [List.filter_cons, List.filter_cons, e1, e2]
      simp only [if_true, List.map_cons]
      rw [hlow, ih]
    · have hp' : ¬ 0 < (trimStr b).length := by omega
      have e1 : decide (0 < (trimStr a).length) = false := decide_eq_false hp
      have e2 : decide (0 < (trimStr b).length) = false := decide_eq_false hp'
      rw [List.filter_cons, List.filter_cons, e1, e2]
      simp only [Bool.false_eq_true, if_false]
      exact ih

/-! ### Set/get interaction lemmas -/

theorem newEntry_expiresAt (s : CacheState) (now : Rat) (v : CacheValue)
    (x : Option Rat) : (newEntry s now v x).expiresAt = now + expiryOf s x := by
  unfold newEntry
  by_cases h : (s.compressionEnabled &&
      decide (s.autoCompressionThreshold < calculateSize v.contextFiles v.summary)) = true
  · simp only [h, if_true]
    rw [compressEntry_expiresAt]
    rfl
  · simp only [h, Bool.false_eq_true, if_false]
    rfl

theorem decompressEntry_ok (e : Entry) (sd : SerData) (os : Nat) (pct : Option Rat)
    (hc : e.compressed = true)
    (hcf : e.contextFiles = .packed (some (.bstr (.ok sd))) (some os) pct)
    (hos : os ≠ 0) :
    decompressEntry e =
      { e with contextFiles := .files sd.contextFiles, summary := some sd.summary,
               compressed := false, size := os } := by
  unfold decompressEntry
  rw [hcf]
  simp [hc, hos]

theorem newEntry_get_shape (s : CacheState) (now : Rat) (v : CacheValue)
    (x : Option Rat) :
    ((if (newEntry s now v x).compressed then decompressEntry (newEntry s now v x)
       else newEntry s now v x).contextFiles = .files v.contextFiles) ∧
    ((if (newEntry s now v x).compressed then decompressEntry (newEntry s now v x)
       else newEntry s now v x).summary = v.summary ∨
      (v.summary = none ∧
        (if (newEntry s now v x).compressed then decompressEntry (newEntry s now v x)
          else newEntry s now v x).summary = some "")) := by
  unfold newEntry
  by_cases h : (s.compressionEnabled &&
      decide (s.autoCompressionThreshold < calculateSize v.contextFiles v.summary)) = true
  · simp only [h, if_true]
    rcases compressEntry_eq_or s.compressionEnabled s.autoCompressionThreshold
        (plainEntry s now v x) with heq | ⟨hnc, hthr, m, hcf, hmne, hshrink, heq⟩
    · rw [heq]
      simp [plainEntry]
    · have hm : m = v.contextFiles := by
        have := hcf
        simp only [plainEntry, CtxFiles.files.injEq] at this
        exact this.symm
      subst hm
      rw [heq]
      have hcmp : ({ plainEntry s now v x with
          contextFiles := .packed (some (.bstr (.ok ⟨v.contextFiles,
            (plainEntry s now v x).summary.getD ""⟩)))
            (some (plainEntry s now v x).size)
            (some ((1 - (deflateLen ⟨v.contextFiles,
              (plainEntry s now v x).summary.getD ""⟩ : Rat) /
                ((plainEntry s now v x).size : Rat)) * 100))
          compressed := true
          originalSize := some (plainEntry s now v x).size
          size := deflateLen ⟨v.contextFiles, (plainEntry s now v x).summary.getD ""⟩ }
            : Entry).compressed = true := rfl
    -- the compressed branch decompresses back to the serialized data
      rw [hcmp]
      simp only [if_true]
      have hos : (plainEntry s now v x).size ≠ 0 := by
        have h1 : s.autoCompressionThreshold < (plainEntry s now v x).size := hthr
        omega
      rw [decompressEntry_ok _ ⟨v.contextFiles, (plainEntry s now v x).summary.getD ""⟩
        (plainEntry s now v x).size _ rfl rfl hos]
      constructor
      · rfl
      · show some ((plainEntry s now v x).summary.getD "") = v.summary ∨ _
        match hv : v.summary with
        | some str =>
          left
          simp [plainEntry, hv]
        | none =>
          right
          exact ⟨rfl, by simp [plainEntry, hv]⟩
  · simp only [h, Bool.false_eq_true, if_false]
    simp [plainEntry]

theorem getOp_hit_counters (s : CacheState) (t0 t1 : Rat) (k : String) (e : Entry)
    (hL : lookupKey s.cache k = some e) (hLive : ¬ e.expiresAt < t1) :
    (getOp s t0 t1 k).2.hits = s.hits + 1 ∧ (getOp s t0 t1 k).2.misses = s.misses := by
  rw [getOp_state s t0 t1 k e hL hLive]
  by_cases hAd : s.adaptiveExpiryEnabled <;> simp [hAd]

theorem set_get_helper (s : CacheState) (now t0 t1 : Rat) (k : String)
    (v : CacheValue) (x : Option Rat) (hLive : ¬ (now + expiryOf s x < t1)) :
    ∃ r, (getOp (setOp s now k v x) t0 t1 k).1 = some r ∧
      r.contextFiles = .files v.contextFiles ∧
      (r.summary = v.summary ∨ (v.summary = none ∧ r.summary = some "")) ∧
      (getOp (setOp s now k v x) t0 t1 k).2.hits = (setOp s now k v x).hits + 1 ∧
      (getOp (setOp s now k v x) t0 t1 k).2.misses = (setOp s now k v x).misses := by
  have hL : lookupKey (setOp s now k v x).cache k = some (newEntry s now v x) := by
    rw [setOp_cache]
    exact lookupKey_insertKey_self _ _ _
  have hLive' : ¬ (newEntry s now v x).expiresAt < t1 := by
    rw [newEntry_expiresAt]
    exact hLive
  have hres := getOp_result (setOp s now k v x) t0 t1 k _ hL hLive'
  have hshape := newEntry_get_shape s now v x
  refine ⟨_, hres, hshape.1, hshape.2, ?_⟩
  exact getOp_hit_counters (setOp s now k v x) t0 t1 k _ hL hLive'

/-! ### Claim theorems -/

/-- C3: `generateCacheKey` is a pure Lean function (determinism is
definitional), and its key is invariant under permutation of the file-path
list, under per-path changes of letter casing, and under passing an empty
or blank prompt id instead of omitting it. -/
theorem generateCacheKeyNormalization :
    (∀ (pid : Option String) (ms fs1 fs2 : List String), fs1.Perm fs2 →
        generateCacheKey pid ms fs1 = generateCacheKey pid ms fs2) ∧
    (∀ (pid : Option String) (ms fs1 fs2 : List String),
        List.Forall₂ caseEquiv fs1 fs2 →
        generateCacheKey pid ms fs1 = generateCacheKey pid ms fs2) ∧
    (∀ (ms fs : List String) (s : String), (trimStr s).length = 0 →
        generateCacheKey none ms fs = generateCacheKey (some s) ms fs) := by
  refine ⟨?_, ?_, ?_⟩
  · intro pid ms fs1 fs2 h
    simp only [generateCacheKey]
    rw [normalizedFilePaths_perm fs1 fs2 h]
  · intro pid ms fs1 fs2 h
    simp only [generateCacheKey]
    rw [normalizedFilePaths_caseEquiv fs1 fs2 h]
  · intro ms fs s h
    simp [generateCacheKey, h]

/-- A small concrete configuration for the concrete instantiations:
compression threshold 2 bytes, default expiry 100 ms. -/
def demoState : CacheState :=
  { initialState with autoCompressionThreshold := 2, defaultExpiryMs := 100 }

/-- A large compressible payload carrying no summary. -/
def bigNoSummary : CacheValue := ⟨[("p", String.mk (List.replicate 200 'a'))], none⟩

/-- A large compressible payload carrying a summary. -/
def bigWithSummary : CacheValue :=
  ⟨[("p", String.mk (List.replicate 200 'a'))], some "sum"⟩

/-- Another large compressible payload carrying no summary. -/
def bigNoSummaryB : CacheValue := ⟨[("q", String.mk (List.replicate 150 'b'))], none⟩

/-- Concrete instantiation of C3 at explicit inputs. -/
theorem generateCacheKeyNormalization_witness :
    ["b", "A "].Perm ["A ", "b"] ∧
    List.Forall₂ caseEquiv ["Ab"] ["aB"] ∧
    (trimStr "  ").length = 0 ∧
    generateCacheKey (some "p") ["m"] ["b", "A "] =
      generateCacheKey (some "p") ["m"] ["A ", "b"] ∧
    generateCacheKey none ["m"] ["Ab"] = generateCacheKey none ["m"] ["aB"] ∧
    generateCacheKey none ["m"] ["f"] = generateCacheKey (some "  ") ["m"] ["f"] :=
  ⟨by decide, List.Forall₂.cons (by decide) List.Forall₂.nil, by decide,
   generateCacheKeyNormalization.1 (some "p") ["m"] _ _ (by decide),
   generateCacheKeyNormalization.2.1 none ["m"] _ _
     (List.Forall₂.cons (by decide) List.Forall₂.nil),
   generateCacheKeyNormalization.2.2 ["m"] ["f"] "  " (by decide)⟩

/-- C4 as stated is false: a `set` with expiry override `0` at time `0`
stores `expiresAt = 100` (the default expiry), not `0 + 0`, because the
source tests the override with `||`. -/
theorem setExpiryOverride_cex :
    (lookupKey (setOp demoState 0 "k" ⟨[("p", "x")], none⟩ (some 0)).cache "k").map
        (fun e => e.expiresAt) = some 100 ∧
    ¬ (lookupKey (setOp demoState 0 "k" ⟨[("p", "x")], none⟩ (some 0)).cache "k").map
        (fun e => e.expiresAt) = some (0 + 0) := by
  exact ⟨by with_unfolding_all decide, by with_unfolding_all decide⟩

/-- C4 (amended): the stored entry has `expiresAt = now + override` when the
override is given and nonzero; a missing or zero override falls back to
`now + defaultExpiryMs`; and a `get` that finds an entry whose `expiresAt`
lies strictly in the past deletes it, counts exactly one miss, and returns
absent. -/
theorem setExpiryAndExpiredGet :
    (∀ (s : CacheState) (now : Rat) (k : String) (v : CacheValue) (q : Rat), q ≠ 0 →
        ∃ e, lookupKey (setOp s now k v (some q)).cache k = some e ∧
          e.expiresAt = now + q) ∧
    (∀ (s : CacheState) (now : Rat) (k : String) (v : CacheValue) (x : Option Rat),
        x = none ∨ x = some 0 →
        ∃ e, lookupKey (setOp s now k v x).cache k = some e ∧
          e.expiresAt = now + s.defaultExpiryMs) ∧
    (∀ (s : CacheState) (t0 t1 : Rat) (k : String) (e : Entry),
        lookupKey s.cache k = some e → e.expiresAt < t1 →
        getOp s t0 t1 k =
          (none, { s with cache := eraseKey s.cache k, misses := s.misses + 1 })) := by
  refine ⟨?_, ?_, ?_⟩
  · intro s now k v q hq
    refine ⟨_, by rw [setOp_cache]; exact lookupKey_insertKey_self _ _ _, ?_⟩
    rw [newEntry_expiresAt]
    simp [expiryOf, hq]
  · intro s now k v x hx
    refine ⟨_, by rw [setOp_cache]; exact lookupKey_insertKey_self _ _ _, ?_⟩
    rw [newEntry_expiresAt]
    rcases hx with rfl | rfl <;> simp [expiryOf]
  · intro s t0 t1 k e hL hExp
    unfold getOp
    rw [hL]
    simp [if_pos hExp]

/-- The expired entry used to instantiate the expired-`get` part of C4. -/
def expiredEntry : Entry :=
  { timestamp := 0, contextFiles := .files [("e", "z")], summary := none,
    expiresAt := 10, size := 2, compressed := false, originalSize := none,
    accessCount := 0, lastAccessTime := 0, totalAccessTime := 0 }

def expiredState : CacheState := { demoState with cache := [("k", expiredEntry)] }

/-- Concrete instantiation of C4 (amended) at explicit inputs. -/
theorem setExpiryAndExpiredGet_witness :
    ((7 : Rat) ≠ 0) ∧
    (∃ e, lookupKey (setOp demoState 0 "k" ⟨[("p", "x")], none⟩ (some 7)).cache "k" =
        some e ∧ e.expiresAt = 0 + 7) ∧
    (∃ e, lookupKey (setOp demoState 0 "k" ⟨[("p", "x")], none⟩ none).cache "k" =
        some e ∧ e.expiresAt = 0 + demoState.defaultExpiryMs) ∧
    lookupKey expiredState.cache "k" = some expiredEntry ∧
    expiredEntry.expiresAt < 20 ∧
    getOp expiredState 20 20 "k" =
      (none, { expiredState with cache := eraseKey expiredState.cache "k",
                                 misses := expiredState.misses + 1 }) :=
  ⟨by decide,
   setExpiryAndExpiredGet.1 demoState 0 "k" ⟨[("p", "x")], none⟩ 7 (by decide),
   setExpiryAndExpiredGet.2.1 demoState 0 "k" ⟨[("p", "x")], none⟩ none (Or.inl rfl),
   by decide, by decide,
   setExpiryAndExpiredGet.2.2 expiredState 20 20 "k" expiredEntry (by decide) (by decide)⟩

/-- C5: with adaptive expiry enabled, a hit on a live key stores an entry
whose `expiresAt` is the maximum of the old value and
`now + defaultExpiryMs * (min(accessCount, 10) / 10)` (with the freshly
incremented access count); the expiry never decreases, and the extension is
capped by one extra default-expiry window, hence by the 2x window whenever
the old expiry was within it. -/
theorem adaptiveExpiryExtension (s : CacheState) (t0 t1 : Rat) (k : String)
    (e : Entry) (hAd : s.adaptiveExpiryEnabled = true)
    (hL : lookupKey s.cache k = some e) (hLive : ¬ e.expiresAt < t1) :
    ∃ e', lookupKey (getOp s t0 t1 k).2.cache k = some e' ∧
      e'.expiresAt = max e.expiresAt
        (t1 + s.defaultExpiryMs * (((min (e.accessCount + 1) 10 : Nat) : Rat) / 10)) ∧
      e.expiresAt ≤ e'.expiresAt ∧
      (0 ≤ s.defaultExpiryMs → e.expiresAt ≤ t1 + 2 * s.defaultExpiryMs →
        e'.expiresAt ≤ t1 + 2 * s.defaultExpiryMs) := by
  have hd0exp : (if e.compressed then decompressEntry e else e).expiresAt = e.expiresAt := by
    by_cases hc : e.compressed <;> simp [hc, decompressEntry_expiresAt]
  have hd0ac : (if e.compressed then decompressEntry e else e).accessCount = e.accessCount := by
    by_cases hc : e.compressed <;> simp [hc, decompressEntry_accessCount]
  have hf10 : ((min (e.accessCount + 1) 10 : Nat) : Rat) ≤ 10 := by
    exact_mod_cast Nat.min_le_right _ _
  rw [getOp_state s t0 t1 k e hL hLive]
  simp only [hAd, if_true]
  refine ⟨_, lookupKey_insertKey_self _ _ _, ?_, ?_, ?_⟩
  · simp only [adjustExpiryEntry]
    rw [hd0exp, hd0ac]
  · simp only [adjustExpiryEntry]
    rw [hd0exp]
    exact le_max_left _ _
  · intro h0 hcap
    simp only [adjustExpiryEntry]
    rw [hd0exp, hd0ac]
    apply max_le hcap
    have hdiv : ((min (e.accessCount + 1) 10 : Nat) : Rat) / 10 ≤ 1 := by
      rw [div_le_one (by norm_num : (0 : Rat) < 10)]
      linarith
    have hmul : s.defaultExpiryMs * (((min (e.accessCount + 1) 10 : Nat) : Rat) / 10) ≤
        s.defaultExpiryMs := by
      calc s.defaultExpiryMs * (((min (e.accessCount + 1) 10 : Nat) : Rat) / 10)
          ≤ s.defaultExpiryMs * 1 := by
            exact mul_le_mul_of_nonneg_left hdiv h0
        _ = s.defaultExpiryMs := mul_one _
    linarith

/-- A live, uncompressed concrete entry (expires at time 100). -/
def liveEntry : Entry :=
  { timestamp := 0, contextFiles := .files [("h", "y")], summary := none,
    expiresAt := 100, size := 2, compressed := false, originalSize := none,
    accessCount := 0, lastAccessTime := 0, totalAccessTime := 0 }

def liveState : CacheState := { demoState with cache := [("h", liveEntry)] }

/-- Concrete instantiation of C5 at explicit inputs. -/
theorem adaptiveExpiryExtension_witness :
    liveState.adaptiveExpiryEnabled = true ∧
    lookupKey liveState.cache "h" = some liveEntry ∧
    ¬ liveEntry.expiresAt < 95 ∧
    (∃ e', lookupKey (getOp liveState 95 95 "h").2.cache "h" = some e' ∧
      e'.expiresAt = max liveEntry.expiresAt
        (95 + liveState.defaultExpiryMs *
          (((min (liveEntry.accessCount + 1) 10 : Nat) : Rat) / 10)) ∧
      liveEntry.expiresAt ≤ e'.expiresAt ∧
      (0 ≤ liveState.defaultExpiryMs →
        liveEntry.expiresAt ≤ 95 + 2 * liveState.defaultExpiryMs →
        e'.expiresAt ≤ 95 + 2 * liveState.defaultExpiryMs)) :=
  ⟨rfl, rfl, by with_unfolding_all decide,
   adaptiveExpiryExtension liveState 95 95 "h" liveEntry rfl rfl
     (by with_unfolding_all decide)⟩

/-- C6 as stated fails for a compressible payload with an absent summary:
the compressed round-trip returns the summary as the empty string, so the
result is not deep-equal to the original payload. -/
theorem compressionRoundtrip_cex :
    demoState.autoCompressionThreshold <
        calculateSize bigNoSummaryB.contextFiles bigNoSummaryB.summary ∧
    deflateLen ⟨bigNoSummaryB.contextFiles, ""⟩ <
        calculateSize bigNoSummaryB.contextFiles bigNoSummaryB.summary ∧
    (getOp (setOp demoState 0 "c" bigNoSummaryB none) 1 1 "c").1 ≠
      some ⟨.files bigNoSummaryB.contextFiles, bigNoSummaryB.summary⟩ ∧
    (getOp (setOp demoState 0 "c" bigNoSummaryB none) 1 1 "c").1 =
      some ⟨.files bigNoSummaryB.contextFiles, some ""⟩ :=
  ⟨by decide, by decide, by with_unfolding_all decide, by with_unfolding_all decide⟩

/-- C6 (amended): restricted to payloads with a present summary, a `set`
whose computed size exceeds the compression threshold and whose deflate
output is strictly smaller, followed by a `get` before expiry, returns a
payload deep-equal to the original (an absent summary instead comes back as
the empty string when the entry was compressed — see the counterexample). -/
theorem compressionRoundtrip (s : CacheState) (now t0 t1 : Rat) (k : String)
    (v : CacheValue) (str : String) (hSum : v.summary = some str)
    (_hThr : s.autoCompressionThreshold < calculateSize v.contextFiles v.summary)
    (_hShrink : deflateLen ⟨v.contextFiles, str⟩ < calculateSize v.contextFiles v.summary)
    (hLive : ¬ (now + s.defaultExpiryMs < t1)) :
    (getOp (setOp s now k v none) t0 t1 k).1 =
      some ⟨.files v.contextFiles, some str⟩ := by
  obtain ⟨r, h1, h2, h3, _⟩ :=
    set_get_helper s now t0 t1 k v none (by simpa [expiryOf] using hLive)
  rw [h1]
  rcases h3 with h3 | ⟨h3, _⟩
  · rw [hSum] at h3
    obtain ⟨rc, rs⟩ := r
    simp only at h2 h3
    rw [h2, h3]
  · rw [hSum] at h3
    cases h3

/-- Concrete instantiation of C6 (amended) at explicit inputs. -/
theorem compressionRoundtrip_witness :
    bigWithSummary.summary = some "sum" ∧
    demoState.autoCompressionThreshold <
      calculateSize bigWithSummary.contextFiles bigWithSummary.summary ∧
    deflateLen ⟨bigWithSummary.contextFiles, "sum"⟩ <
      calculateSize bigWithSummary.contextFiles bigWithSummary.summary ∧
    ¬ ((0 : Rat) + demoState.defaultExpiryMs < 1) ∧
    (getOp (setOp demoState 0 "k" bigWithSummary none) 1 1 "k").1 =
      some ⟨.files bigWithSummary.contextFiles, some "sum"⟩ :=
  ⟨rfl, by decide, by decide, by with_unfolding_all decide,
   compressionRoundtrip demoState 0 1 1 "k" bigWithSummary "sum" rfl (by decide)
     (by decide) (by with_unfolding_all decide)⟩

/-- C8 as stated fails on a compressible payload with an absent summary:
the hit returns summary `""` instead of the stored `none`, so the returned
value is not equal to the one passed to `set`. -/
theorem missThenHit_cex :
    (getOp (setOp demoState 0 "k" bigNoSummary none) 1 1 "k").1 ≠
      some ⟨.files bigNoSummary.contextFiles, bigNoSummary.summary⟩ ∧
    (getOp (setOp demoState 0 "k" bigNoSummary none) 1 1 "k").1 =
      some ⟨.files bigNoSummary.contextFiles, some ""⟩ :=
  ⟨by with_unfolding_all decide, by with_unfolding_all decide⟩

/-- C8 (amended): a `get` on an absent key returns absent, increments
`misses` by exactly one and changes nothing else; a `set` followed by a
`get` before expiry returns the stored contextFiles, the summary verbatim
unless the entry was compressed with an absent summary (then the empty
string), and increments `hits` by exactly one leaving `misses` unchanged. -/
theorem missThenHit :
    (∀ (s : CacheState) (t0 t1 : Rat) (k : String), lookupKey s.cache k = none →
        getOp s t0 t1 k = (none, { s with misses := s.misses + 1 })) ∧
    (∀ (s : CacheState) (now t0 t1 : Rat) (k : String) (v : CacheValue)
        (x : Option Rat), ¬ (now + expiryOf s x < t1) →
        ∃ r, (getOp (setOp s now k v x) t0 t1 k).1 = some r ∧
          r.contextFiles = .files v.contextFiles ∧
          (r.summary = v.summary ∨ (v.summary = none ∧ r.summary = some "")) ∧
          (getOp (setOp s now k v x) t0 t1 k).2.hits = (setOp s now k v x).hits + 1 ∧
          (getOp (setOp s now k v x) t0 t1 k).2.misses = (setOp s now k v x).misses) := by
  constructor
  · intro s t0 t1 k hL
    simp [getOp, hL]
  · intro s now t0 t1 k v x hLive
    exact set_get_helper s now t0 t1 k v x hLive

/-- Concrete instantiation of C8 (amended) at explicit inputs. -/
theorem missThenHit_witness :
    lookupKey demoState.cache "nope" = none ∧
    getOp demoState 0 0 "nope" =
      (none, { demoState with misses := demoState.misses + 1 }) ∧
    ¬ ((0 : Rat) + expiryOf demoState none < 1) ∧
    (∃ r, (getOp (setOp demoState 0 "k" ⟨[("p", "x")], some "s"⟩ none) 0 1 "k").1 =
        some r ∧
      r.contextFiles = .files [("p", "x")] ∧
      (r.summary = some "s" ∨ ((some "s" : Option String) = none ∧ r.summary = some "")) ∧
      (getOp (setOp demoState 0 "k" ⟨[("p", "x")], some "s"⟩ none) 0 1 "k").2.hits =
        (setOp demoState 0 "k" ⟨[("p", "x")], some "s"⟩ none).hits + 1 ∧
      (getOp (setOp demoState 0 "k" ⟨[("p", "x")], some "s"⟩ none) 0 1 "k").2.misses =
        (setOp demoState 0 "k" ⟨[("p", "x")], some "s"⟩ none).misses) :=
  ⟨rfl, missThenHit.1 demoState 0 0 "nope" rfl, by with_unfolding_all decide,
   missThenHit.2 demoState 0 0 1 "k" ⟨[("p", "x")], some "s"⟩ none
     (by with_unfolding_all decide)⟩

/-- C9: `set` is total on the embedded state (the source's try/catch keeps
every serialization or compression failure internal, so the call cannot
throw); it always stores an entry under the key with the configured expiry,
and whenever the stored entry is not compressed (the degraded path) it is
exactly the plain uncompressed entry for the supplied payload. -/
theorem setNeverFails (s : CacheState) (now : Rat) (k : String) (v : CacheValue)
    (x : Option Rat) :
    ∃ e, lookupKey (setOp s now k v x).cache k = some e ∧
      e.expiresAt = now + expiryOf s x ∧
      (e.compressed = true ∨
        (e.compressed = false ∧ e.contextFiles = .files v.contextFiles ∧
          e.summary = v.summary ∧
          e.size = calculateSize v.contextFiles v.summary)) := by
  refine ⟨newEntry s now v x,
    by rw [setOp_cache]; exact lookupKey_insertKey_self _ _ _,
    newEntry_expiresAt s now v x, ?_⟩
  unfold newEntry
  by_cases h : (s.compressionEnabled &&
      decide (s.autoCompressionThreshold < calculateSize v.contextFiles v.summary)) = true
  · simp only [h, if_true]
    rcases compressEntry_eq_or s.compressionEnabled s.autoCompressionThreshold
        (plainEntry s now v x) with heq | ⟨_, _, m, _, _, _, heq⟩
    · rw [heq]
      right
      exact ⟨rfl, rfl, rfl, rfl⟩
    · rw [heq]
      left
      rfl
  · simp only [h, Bool.false_eq_true, if_false]
    right
    exact ⟨rfl, rfl, rfl, rfl⟩

/-- C10: a `get` that successfully decompresses a compressed entry stores
back, under the same key, the decompressed entry: `compressed` false, size
reset to the packed original size, contextFiles holding the literal file
map, summary the decompressed summary, access count incremented. -/
theorem getDecompressReplacesEntry (s : CacheState) (t0 t1 : Rat) (k : String)
    (e : Entry) (sd : SerData) (os : Nat) (pct : Option Rat)
    (hL : lookupKey s.cache k = some e) (hc : e.compressed = true)
    (hcf : e.contextFiles = .packed (some (.bstr (.ok sd))) (some os) pct)
    (hos : os ≠ 0) (hLive : ¬ e.expiresAt < t1) :
    ∃ e', lookupKey (getOp s t0 t1 k).2.cache k = some e' ∧
      e'.compressed = false ∧ e'.size = os ∧
      e'.contextFiles = .files sd.contextFiles ∧
      e'.summary = some sd.summary ∧
      e'.accessCount = e.accessCount + 1 := by
  have hd := decompressEntry_ok e sd os pct hc hcf hos
  rw [getOp_state s t0 t1 k e hL hLive]
  by_cases hAd : s.adaptiveExpiryEnabled
  · simp only [hAd, if_true]
    refine ⟨_, lookupKey_insertKey_self _ _ _, ?_⟩
    simp [adjustExpiryEntry, hc, hd]
  · simp only [hAd, Bool.false_eq_true, if_false]
    refine ⟨_, lookupKey_insertKey_self _ _ _, ?_⟩
    simp [hc, hd]

/-- The concrete compressed entry used to instantiate C10. -/
def packedEntry : Entry :=
  { timestamp := 0,
    contextFiles := .packed (some (.bstr (.ok ⟨[("p", "abc")], "su"⟩))) (some 9) none,
    summary := some "old", expiresAt := 100, size := 4, compressed := true,
    originalSize := some 9, accessCount := 0, lastAccessTime := 0,
    totalAccessTime := 0 }

def packedState : CacheState := { demoState with cache := [("k", packedEntry)] }

/-- Concrete instantiation of C10 at explicit inputs. -/
theorem getDecompressReplacesEntry_witness :
    lookupKey packedState.cache "k" = some packedEntry ∧
    packedEntry.compressed = true ∧
    packedEntry.contextFiles =
      .packed (some (.bstr (.ok ⟨[("p", "abc")], "su"⟩))) (some 9) none ∧
    (9 : Nat) ≠ 0 ∧
    ¬ packedEntry.expiresAt < 5 ∧
    (∃ e', lookupKey (getOp packedState 5 5 "k").2.cache "k" = some e' ∧
      e'.compressed = false ∧ e'.size = 9 ∧
      e'.contextFiles = .files [("p", "abc")] ∧
      e'.summary = some "su" ∧
      e'.accessCount = packedEntry.accessCount + 1) :=
  ⟨rfl, rfl, rfl, by decide, by with_unfolding_all decide,
   getDecompressReplacesEntry packedState 5 5 "k" packedEntry ⟨[("p", "abc")], "su"⟩
     9 none rfl rfl rfl (by decide) (by with_unfolding_all decide)⟩

/-- C2: starting from an empty cache with a positive capacity bound, no
sequence of operations (with that bound fixed) ever pushes the entry count
above the bound; and a `set` issued when the post-cleanup store is at or
above capacity removes exactly one entry — one whose `timestamp` (the
last-touch time) is minimal across all entries, ties going to the earliest
iteration position — before inserting the new one. -/
theorem capacityBoundAndEviction :
    (∀ (s₀ : CacheState) (ops : List Op), s₀.cache = [] → 1 ≤ s₀.maxSize →
        (runOps s₀ ops).cache.length ≤ (runOps s₀ ops).maxSize) ∧
    (∀ (s : CacheState) (now : Rat) (k : String) (v : CacheValue) (x : Option Rat),
        1 ≤ s.maxSize → s.maxSize ≤ (cleanupOp s now).cache.length →
        ∃ kold p, getOldestEntry (cleanupOp s now).cache = some kold ∧
          p ∈ (cleanupOp s now).cache ∧ p.1 = kold ∧
          (∀ q ∈ (cleanupOp s now).cache, p.2.timestamp ≤ q.2.timestamp) ∧
          (setOp s now k v x).cache =
            insertKey (eraseKey (cleanupOp s now).cache kold) k (newEntry s now v x)) := by
  constructor
  · intro s₀ ops h0 hmax
    exact runOps_size_inv s₀ ops hmax (by rw [h0]; exact Nat.zero_le _)
  · intro s now k v x hmax hcap
    have hne : (cleanupOp s now).cache ≠ [] := by
      intro h
      rw [h] at hcap
      simp at hcap
      omega
    obtain ⟨kold, p, hold, hmem, hk, hmin⟩ := getOldestEntry_spec _ hne
    refine ⟨kold, p, hold, hmem, hk, hmin, ?_⟩
    rw [setOp_cache, if_pos hcap, hold]

/-- The operation sequence used to instantiate the capacity bound of C2. -/
def demoOps : List Op :=
  [.opSet 0 "x" ⟨[("p", "x")], none⟩ none,
   .opSet 1 "y" ⟨[("q", "y")], none⟩ (some 50),
   .opGet 2 2 "x",
   .opDelete "y",
   .opSet 3 "z" ⟨[("r", "z")], none⟩ (some 10)]

/-- A state at capacity (bound 1) with one live entry. -/
def fullState : CacheState :=
  { demoState with maxSize := 1, cache := [("a", liveEntry)] }

/-- Concrete instantiation of C2 at explicit inputs. -/
theorem capacityBoundAndEviction_witness :
    demoState.cache = [] ∧ 1 ≤ demoState.maxSize ∧
    (runOps demoState demoOps).cache.length ≤ (runOps demoState demoOps).maxSize ∧
    1 ≤ fullState.maxSize ∧
    fullState.maxSize ≤ (cleanupOp fullState 0).cache.length ∧
    (∃ kold p, getOldestEntry (cleanupOp fullState 0).cache = some kold ∧
      p ∈ (cleanupOp fullState 0).cache ∧ p.1 = kold ∧
      (∀ q ∈ (cleanupOp fullState 0).cache, p.2.timestamp ≤ q.2.timestamp) ∧
      (setOp fullState 0 "x" ⟨[("p", "y")], none⟩ none).cache =
        insertKey (eraseKey (cleanupOp fullState 0).cache kold) "x"
          (newEntry fullState 0 ⟨[("p", "y")], none⟩ none)) :=
  ⟨rfl, by decide,
   capacityBoundAndEviction.1 demoState demoOps rfl (by decide),
   by decide, by with_unfolding_all decide,
   capacityBoundAndEviction.2 fullState 0 "x" ⟨[("p", "y")], none⟩ none (by decide)
     (by with_unfolding_all decide)⟩

/-- C7: every entry reachable from an empty cache satisfies the compressed
invariant (a compressed entry carries its original size and is no larger);
a payload at or below the compression threshold is stored uncompressed; and
a payload whose deflate output fails to shrink it (the ratio-not-positive
guard) is stored uncompressed. -/
theorem compressionInvariants :
    (∀ (s₀ : CacheState) (ops : List Op), s₀.cache = [] →
        ∀ p ∈ (runOps s₀ ops).cache, entryInv p.2) ∧
    (∀ (s : CacheState) (now : Rat) (k : String) (v : CacheValue) (x : Option Rat),
        calculateSize v.contextFiles v.summary ≤ s.autoCompressionThreshold →
        ∃ e, lookupKey (setOp s now k v x).cache k = some e ∧
          e.compressed = false ∧ e.contextFiles = .files v.contextFiles) ∧
    (∀ (s : CacheState) (now : Rat) (k : String) (v : CacheValue) (x : Option Rat),
        calculateSize v.contextFiles v.summary ≤
          deflateLen ⟨v.contextFiles, v.summary.getD ""⟩ →
        ∃ e, lookupKey (setOp s now k v x).cache k = some e ∧
          e.compressed = false ∧ e.contextFiles = .files v.contextFiles) := by
  refine ⟨?_, ?_, ?_⟩
  · intro s₀ ops h0
    refine runOps_cacheInv s₀ ops ?_
    intro p hp
    rw [h0] at hp
    simp at hp
  · intro s now k v x hsize
    refine ⟨_, by rw [setOp_cache]; exact lookupKey_insertKey_self _ _ _, ?_⟩
    unfold newEntry
    have hcond : (s.compressionEnabled &&
        decide (s.autoCompressionThreshold < calculateSize v.contextFiles v.summary)) =
          false := by
      rw [decide_eq_false (not_lt.mpr hsize)]
      exact Bool.and_false _
    simp only [hcond, Bool.false_eq_true, if_false]
    exact ⟨rfl, rfl⟩
  · intro s now k v x hsize
    refine ⟨_, by rw [setOp_cache]; exact lookupKey_insertKey_self _ _ _, ?_⟩
    unfold newEntry
    by_cases h : (s.compressionEnabled &&
        decide (s.autoCompressionThreshold < calculateSize v.contextFiles v.summary)) = true
    · simp only [h, if_true]
      rcases compressEntry_eq_or s.compressionEnabled s.autoCompressionThreshold
          (plainEntry s now v x) with heq | ⟨_, _, m, hcf, _, hshrink, _⟩
      · rw [heq]
        exact ⟨rfl, rfl⟩
      · exfalso
        have hm : v.contextFiles = m := by
          have h1 : (plainEntry s now v x).contextFiles = .files v.contextFiles := rfl
          rw [h1] at hcf
          exact (CtxFiles.files.injEq _ _).mp hcf
        have h2 : (plainEntry s now v x).summary = v.summary := rfl
        have h3 : (plainEntry s now v x).size = calculateSize v.contextFiles v.summary := rfl
        rw [h2, h3, ← hm] at hshrink
        omega
    · simp only [h, Bool.false_eq_true, if_false]
      exact ⟨rfl, rfl⟩

/-- A payload at or below the threshold and an incompressible payload above
it, for the C7 instantiation. -/
def tinyValue : CacheValue := ⟨[("p", "x")], none⟩

def highEntropyValue : CacheValue := ⟨[("p", "abcdefgh")], none⟩

/-- Concrete instantiation of C7 at explicit inputs. -/
theorem compressionInvariants_witness :
    demoState.cache = [] ∧
    (∀ p ∈ (runOps demoState demoOps).cache, entryInv p.2) ∧
    calculateSize tinyValue.contextFiles tinyValue.summary ≤
      demoState.autoCompressionThreshold ∧
    (∃ e, lookupKey (setOp demoState 0 "t" tinyValue none).cache "t" = some e ∧
      e.compressed = false ∧ e.contextFiles = .files tinyValue.contextFiles) ∧
    calculateSize highEntropyValue.contextFiles highEntropyValue.summary ≤
      deflateLen ⟨highEntropyValue.contextFiles, highEntropyValue.summary.getD ""⟩ ∧
    (∃ e, lookupKey (setOp demoState 0 "u" highEntropyValue none).cache "u" = some e ∧
      e.compressed = false ∧ e.contextFiles = .files highEntropyValue.contextFiles) :=
  ⟨rfl, compressionInvariants.1 demoState demoOps rfl,
   by decide,
   compressionInvariants.2.1 demoState 0 "t" tinyValue none (by decide),
   by decide,
   compressionInvariants.2.2 demoState 0 "u" highEntropyValue none (by decide)⟩

/-- A compressed entry whose packed object lacks the `_compressed` blob. -/
def corruptEntry : Entry :=
  { timestamp := 0, contextFiles := .packed none (some 3) none, summary := some "s",
    expiresAt := 1000, size := 3, compressed := true, originalSize := some 3,
    accessCount := 0, lastAccessTime := 0, totalAccessTime := 0 }

/-- A compressed entry whose `_compressed` slot holds a non-string value. -/
def corruptEntryNonStr : Entry :=
  { corruptEntry with contextFiles := .packed (some (.nonstr 7)) (some 3) none }

/-- A compressed entry whose blob fails to inflate. -/
def corruptEntryBadInflate : Entry :=
  { corruptEntry with
    contextFiles := .packed (some (.bstr (.badInflate 0))) (some 3) none }

/-- A compressed entry whose packed object lacks the original size. -/
def corruptEntryNoSize : Entry :=
  { corruptEntry with contextFiles := .packed (some (.bstr (.badParse 0))) none none }

/-- A healthy uncompressed entry stored beside the corrupt ones. -/
def healthyEntry : Entry :=
  { timestamp := 0, contextFiles := .files [("h", "y")], summary := none,
    expiresAt := 1000, size := 2, compressed := false, originalSize := none,
    accessCount := 0, lastAccessTime := 0, totalAccessTime := 0 }

def corruptState : CacheState :=
  { demoState with
    cache := [("k", corruptEntry), ("k2", corruptEntryNonStr),
              ("k3", corruptEntryBadInflate), ("k4", corruptEntryNoSize),
              ("h", healthyEntry)] }

/-- C1: evaluating the code at the failing input. A `get` on a corrupt
compressed entry (missing blob, non-string blob, inflate failure, missing
original size) does not throw and leaves every other key's entry
retrievable unchanged, but — contrary to the claim — it does not return
absent: it returns a present result still carrying the packed corrupt
payload, and it counts a hit. -/
theorem corruptEntryGetBehavior :
    (getOp corruptState 5 5 "k").1 =
      some ⟨corruptEntry.contextFiles, corruptEntry.summary⟩ ∧
    (getOp corruptState 5 5 "k").1 ≠ none ∧
    (getOp corruptState 5 5 "k2").1 ≠ none ∧
    (getOp corruptState 5 5 "k3").1 ≠ none ∧
    (getOp corruptState 5 5 "k4").1 ≠ none ∧
    lookupKey (getOp corruptState 5 5 "k").2.cache "h" = some healthyEntry ∧
    lookupKey (getOp corruptState 5 5 "k").2.cache "k2" = some corruptEntryNonStr ∧
    (getOp corruptState 5 5 "k").2.hits = corruptState.hits + 1 ∧
    (getOp corruptState 5 5 "k").2.misses = corruptState.misses :=
  ⟨by with_unfolding_all decide, by with_unfolding_all decide,
   by with_unfolding_all decide, by with_unfolding_all decide,
   by with_unfolding_all decide, by with_unfolding_all decide,
   by with_unfolding_all decide, by with_unfolding_all decide,
   by with_unfolding_all decide⟩

end EnhancedContextCache
